import Mathlib

/-
Verification of the pysec parser-combinator engine (src/pysec/__init__.py).

The engine is shallowly embedded: the parser tree is the inductive type
`Pysec.Parser`, evaluation (`_parse` methods) is the fueled executable
function `Pysec.eval`, and the top-level `parse` method is `Pysec.parse`.
A cursor is a character offset (`Nat`) into the input, which is modelled
as a `List Char` (Python string indices are character positions).

Python exceptions are modelled by `Pysec.PErr`:
  * `PErr.parseExc msg` is a `ParseException` with message `msg`;
  * `PErr.crash msg` is any other runtime exception (`TypeError`,
    `IndexError`, ...), which the engine's `except ParseException`
    handlers do NOT catch.

The unbounded greedy loop in `Repeat._parse` can diverge in Python
(e.g. repeating a zero-width match), so `eval` takes a fuel argument and
returns `EvalRes.timeout` when the fuel runs out; all behavioural
theorems hold for every sufficiently large fuel, and `eval_mono` shows
results are stable under adding fuel.
-/

namespace Pysec

/-- Python values produced by the parsers: strings, lists, and `None`. -/
inductive Value where
  | str (s : String)
  | list (vs : List Value)
  | none

/-- Python's `r is not None` test used by `Concat._parse`. -/
def isNotNone : Value → Bool
  | .none => false
  | _ => true

/-- Exceptions raised during evaluation.  `parseExc` is `ParseException`
(caught by `Union._parse` and `Repeat._parse`); `crash` is any other
exception (`TypeError`, `IndexError`), which those handlers let through. -/
inductive PErr where
  | parseExc (msg : String)
  | crash (msg : String)
deriving DecidableEq, Repr

/-- The parser tree: one constructor per `_Parser` subclass of the source
(the `Regex` terminal is not modelled; no claim depends on it).
`map` carries the user-supplied transform of `Map` as a Lean function
returning `Except PErr Value` so that transforms that raise are
representable. -/
inductive Parser where
  | literal (lit : String)
  | id (p : Parser)
  | map (p : Parser) (fn : Value → Except PErr Value)
  | drop (p : Parser)
  | rep (p : Parser) (start : Nat) (stop : Option Nat)
  | concat (ps : List Parser)
  | union (ps : List Parser)

/-- Embeds the `__str__` methods.  `Concat.__str__` and `Union.__str__`
compute `' + '.join(self._ps)` / `' | '.join(self._ps)` over parser
*objects* (a `TypeError`) and are missing a `return`, so rendering them
raises; `Repeat.__str__` formats `self._stop` with `%d`, which raises
`TypeError` when `_stop` is `None` and `_start ≥ 2`. -/
def pyStr : Parser → Except PErr String
  | .literal lit => .ok lit
  | .id p => pyStr p
  | .map p _ => pyStr p
  | .drop p => pyStr p
  | .rep p mn mx =>
      match pyStr p with
      | .error e => .error e
      | .ok d =>
        match mx with
        | Option.none =>
            if mn = 0 then .ok (d ++ "*")
            else if mn = 1 then .ok (d ++ "+")
            else .error (.crash "TypeError")
        | some n => .ok (d ++ "\x7b" ++ toString mn ++ ":" ++ toString n ++ "\x7d")
  | .concat _ => .error (.crash "TypeError")
  | .union _ => .error (.crash "TypeError")

/-- Embeds `ParseException.from_state(parser, query, start)`:
`ParseException('Expected %s. Query: %s. Index: %s' % (parser, query, start))`.
Formatting calls `str(parser)` first; if that raises, the raised exception
replaces the `ParseException`. -/
def fromState (p : Parser) (q : List Char) (start : Nat) : PErr :=
  match pyStr p with
  | .ok d =>
      .parseExc ("Expected " ++ d ++ ". Query: " ++ String.mk q ++ ". Index: " ++ toString start)
  | .error e => e

/-- Result of evaluating a parser node (`_parse`): success with a value and
the new cursor, a raised exception, or fuel exhaustion (modelling a
diverging Python loop). -/
inductive EvalRes where
  | ok (v : Value) (s : Nat)
  | err (e : PErr)
  | timeout

/-- Result of the minimum-repetitions loop of `Repeat._parse` (the list of
values accumulated so far and the cursor, or the raw child exception). -/
inductive LoopRes where
  | ok (vs : List Value) (s : Nat)
  | err (e : PErr)
  | timeout

/-- The `for i in range(0, self._start)` loop of `Repeat._parse`, with the
child evaluation at the current query abstracted as `ev`.  The raw child
exception is returned; the enclosing `except ParseException` is handled at
the `rep` case of `eval`. -/
def evalMinF (ev : Nat → EvalRes) : Nat → Nat → List Value → LoopRes
  | 0, s, rs => .ok rs s
  | k+1, s, rs =>
      match ev s with
      | .ok r s' => evalMinF ev k s' (rs ++ [r])
      | .err e => .err e
      | .timeout => .timeout

/-- The bounded greedy loop `for i in range(0, self._stop - self._start)` of
`Repeat._parse`, inside `try: ... except ParseException: pass`: a
`ParseException` from an attempt terminates the loop normally, any other
exception propagates. -/
def evalMoreF (ev : Nat → EvalRes) : Nat → Nat → List Value → EvalRes
  | 0, s, rs => .ok (.list rs) s
  | k+1, s, rs =>
      match ev s with
      | .ok r s' => evalMoreF ev k s' (rs ++ [r])
      | .err (.parseExc _) => .ok (.list rs) s
      | .err e => .err e
      | .timeout => .timeout

/-- The unbounded greedy loop `while True: ...` of `Repeat._parse` (the
`self._stop is None` branch), likewise swallowing only `ParseException`.
The extra `Nat` is fuel: the loop can diverge in Python. -/
def evalMoreInfF (ev : Nat → EvalRes) : Nat → Nat → List Value → EvalRes
  | 0, _, _ => .timeout
  | k+1, s, rs =>
      match ev s with
      | .ok r s' => evalMoreInfF ev k s' (rs ++ [r])
      | .err (.parseExc _) => .ok (.list rs) s
      | .err e => .err e
      | .timeout => .timeout

/-- The child loop of `Concat._parse`: thread the cursor left to right,
append each non-`None` result (`if r is not None: rs.append(r)`), and let
any exception propagate. -/
def evalSeqF (ev : Parser → Nat → EvalRes) : List Parser → Nat → List Value → EvalRes
  | [], s, rs => .ok (.list rs) s
  | p :: ps, s, rs =>
      match ev p s with
      | .ok r s' => evalSeqF ev ps s' (if isNotNone r then rs ++ [r] else rs)
      | .err e => .err e
      | .timeout => .timeout

/-- The alternative loop of `Union._parse`: try each alternative at the
*original* cursor, return the first success, catch only `ParseException`,
and after the last alternative raise `ParseException.from_state(self, ...)`
(`u` is the `Union` node itself). -/
def evalAltsF (ev : Parser → Nat → EvalRes) (u : Parser) (q : List Char) :
    List Parser → Nat → EvalRes
  | [], s => .err (fromState u q s)
  | p :: ps, s =>
      match ev p s with
      | .ok v s' => .ok v s'
      | .err (.parseExc _) => evalAltsF ev u q ps s
      | .err e => .err e
      | .timeout => .timeout

/-- Embeds the `_parse(self, query, start)` methods of every node class.
`q` is the query, `s` the cursor.  Each recursive call into a child costs
one unit of fuel; `eval 0 _ _ _ = .timeout`. -/
def eval : Nat → Parser → List Char → Nat → EvalRes
  | 0, _, _, _ => .timeout
  | _+1, .literal lit, q, s =>
      if lit.data.isPrefixOf (q.drop s) then .ok (.str lit) (s + lit.length)
      else .err (fromState (.literal lit) q s)
  | f+1, .id p, q, s => eval f p q s
  | f+1, .map p fn, q, s =>
      match eval f p q s with
      | .ok v s' =>
          match fn v with
          | .ok v' => .ok v' s'
          | .error e => .err e
      | .err e => .err e
      | .timeout => .timeout
  | f+1, .drop p, q, s =>
      match eval f p q s with
      | .ok _ s' => .ok Value.none s'
      | .err e => .err e
      | .timeout => .timeout
  | f+1, .concat ps, q, s => evalSeqF (fun p' s' => eval f p' q s') ps s []
  | f+1, .union ps, q, s => evalAltsF (fun p' s' => eval f p' q s') (.union ps) q ps s
  | f+1, .rep p mn mx, q, s =>
      match evalMinF (fun s' => eval f p q s') mn s [] with
      | .err (.parseExc _) =>
          (match pyStr p with
           | .ok d =>
               .err (.parseExc ("Expected at least " ++ toString mn ++
                 " repetitions of " ++ d))
           | .error e => .err e)
      | .err e => .err e
      | .timeout => .timeout
      | .ok rs s₁ =>
          match mx with
          | some n => evalMoreF (fun s' => eval f p q s') (n - mn) s₁ rs
          | Option.none => evalMoreInfF (fun s' => eval f p q s') f s₁ rs

/-- Result of the top-level `parse` method. -/
inductive TopRes where
  | ok (v : Value)
  | err (e : PErr)
  | timeout

/-- Embeds `_Parser.parse(self, query)`: evaluate at cursor 0 and raise
`ParseException('Remaining query after parsing: %s' % query[s:])` when the
final cursor differs from the input length. -/
def parse (f : Nat) (p : Parser) (q : List Char) : TopRes :=
  match eval f p q 0 with
  | .ok r s =>
      if s ≠ q.length then
        .err (.parseExc ("Remaining query after parsing: " ++ String.mk (q.drop s)))
      else .ok r
  | .err e => .err e
  | .timeout => .timeout

/-- The one-element child list that `__add__` uses for a non-`Concat`
operand, and the child list itself for a `Concat` operand. -/
def flatSeq : Parser → List Parser
  | .concat ps => ps
  | p => [p]

/-- Embeds `_Parser.__add__` for parser operands:
`Concat(ps1 + ps2)` where each side is flattened unless it is not a
`Concat` (in particular an `Id` wrapper is kept whole). -/
def padd (p₁ p₂ : Parser) : Parser := .concat (flatSeq p₁ ++ flatSeq p₂)

/-- Python `len` as used by the derived-combinator lambdas (`len` of `None`
raises `TypeError`). -/
def pyLen : Value → Except PErr Nat
  | .str s => .ok s.length
  | .list vs => .ok vs.length
  | .none => .error (.crash "TypeError")

/-- Python subscription `v[i]` for a non-negative index (out of range raises
`IndexError`; subscripting `None` raises `TypeError`). -/
def pyGetItem : Value → Nat → Except PErr Value
  | .str s, i => if h : i < s.data.length then .ok (.str (String.mk [s.data.get ⟨i, h⟩]))
                 else .error (.crash "IndexError")
  | .list vs, i => if h : i < vs.length then .ok (vs.get ⟨i, h⟩)
                 else .error (.crash "IndexError")
  | .none, _ => .error (.crash "TypeError")

/-- The lambda of `Nth`: `lambda res: res[i] if i < len(res) else None`. -/
def nthFn (i : Nat) : Value → Except PErr Value := fun res =>
  match pyLen res with
  | .error e => .error e
  | .ok n => if i < n then pyGetItem res i else .ok Value.none

/-- The lambda of `Joined`: `lambda rs: [rs[0], *rs[1]]` (unpacking a string
yields its one-character strings; unpacking `None` raises `TypeError`). -/
def joinedFn : Value → Except PErr Value := fun rs =>
  match pyGetItem rs 0 with
  | .error e => .error e
  | .ok first =>
      match pyGetItem rs 1 with
      | .error e => .error e
      | .ok (.list ws) => .ok (.list (first :: ws))
      | .ok (.str t) => .ok (.list (first :: t.data.map (fun c => Value.str (String.mk [c]))))
      | .ok .none => .error (.crash "TypeError")

/-- Embeds `Nth(pToken, i) = pToken >> (lambda res: res[i] if i < len(res) else None)`. -/
def Nth (p : Parser) (i : Nat) : Parser := .map p (nthFn i)

/-- Embeds `Optional(pToken) = Nth(pToken[0:1], 0)`
(`pToken[0:1]` is `Repeat(pToken, 0, 1)`). -/
def Optional (p : Parser) : Parser := Nth (.rep p 0 (some 1)) 0

/-- Embeds `Joined(pToken, pSeparator) =
(-pToken + Nth(Drop(pSeparator) + -pToken, 0)[:]) >> (lambda rs: [rs[0], *rs[1]])`.
`-pToken` is `Id(pToken)`, `[:]` is `Repeat(_, 0, None)`; `pSep` is the
separator after `Drop.__init__`'s promotion of a raw string to `Literal`. -/
def Joined (pTok pSep : Parser) : Parser :=
  .map (padd (.id pTok) (.rep (Nth (padd (.drop pSep) (.id pTok)) 0) 0 Option.none))
    joinedFn

/-- Whether a node is an `Id` (`Labeled`) wrapper. -/
def isId : Parser → Bool
  | .id _ => true
  | _ => false

/-! ### Fuel monotonicity

Adding fuel never changes a result that is not a timeout.  The helper
lemmas are stated for the loop combinators, parameterised by the child
evaluation. -/

theorem evalMinF_mono (ev ev' : Nat → EvalRes)
    (h : ∀ s, ev s ≠ .timeout → ev' s = ev s) :
    ∀ k s rs, evalMinF ev k s rs ≠ .timeout →
      evalMinF ev' k s rs = evalMinF ev k s rs := by
  intro k
  induction k with
  | zero => intro s rs _; rfl
  | succ k ih =>
      intro s rs hne
      simp only [evalMinF] at hne ⊢
      cases hev : ev s with
      | ok r s' =>
          rw [h s (by simp [hev])]
          simp only [hev] at hne ⊢
          exact ih s' (rs ++ [r]) hne
      | err e =>
          rw [h s (by simp [hev])]
          simp only [hev]
      | timeout => simp only [hev] at hne; exact absurd rfl hne

theorem evalMoreF_mono (ev ev' : Nat → EvalRes)
    (h : ∀ s, ev s ≠ .timeout → ev' s = ev s) :
    ∀ k s rs, evalMoreF ev k s rs ≠ .timeout →
      evalMoreF ev' k s rs = evalMoreF ev k s rs := by
  intro k
  induction k with
  | zero => intro s rs _; rfl
  | succ k ih =>
      intro s rs hne
      simp only [evalMoreF] at hne ⊢
      cases hev : ev s with
      | ok r s' =>
          rw [h s (by simp [hev])]
          simp only [hev] at hne ⊢
          exact ih s' (rs ++ [r]) hne
      | err e =>
          rw [h s (by simp [hev])]
          simp only [hev]
          cases e <;> rfl
      | timeout => simp only [hev] at hne; exact absurd rfl hne

theorem evalMoreInfF_mono (ev ev' : Nat → EvalRes)
    (h : ∀ s, ev s ≠ .timeout → ev' s = ev s) :
    ∀ k k' s rs, k ≤ k' → evalMoreInfF ev k s rs ≠ .timeout →
      evalMoreInfF ev' k' s rs = evalMoreInfF ev k s rs := by
  intro k
  induction k with
  | zero => intro k' s rs _ hne; exact absurd rfl hne
  | succ k ih =>
      intro k' s rs hk hne
      obtain ⟨k'', rfl⟩ : ∃ k'', k' = k'' + 1 := ⟨k' - 1, by omega⟩
      simp only [evalMoreInfF] at hne ⊢
      cases hev : ev s with
      | ok r s' =>
          rw [h s (by simp [hev])]
          simp only [hev] at hne ⊢
          exact ih k'' s' (rs ++ [r]) (by omega) hne
      | err e =>
          rw [h s (by simp [hev])]
          simp only [hev]
          cases e <;> rfl
      | timeout => simp only [hev] at hne; exact absurd rfl hne

theorem evalSeqF_mono (ev ev' : Parser → Nat → EvalRes)
    (h : ∀ p s, ev p s ≠ .timeout → ev' p s = ev p s) :
    ∀ ps s rs, evalSeqF ev ps s rs ≠ .timeout →
      evalSeqF ev' ps s rs = evalSeqF ev ps s rs := by
  intro ps
  induction ps with
  | nil => intro s rs _; rfl
  | cons p ps ih =>
      intro s rs hne
      simp only [evalSeqF] at hne ⊢
      cases hev : ev p s with
      | ok r s' =>
          rw [h p s (by simp [hev])]
          simp only [hev] at hne ⊢
          exact ih s' _ hne
      | err e =>
          rw [h p s (by simp [hev])]
          simp only [hev]
      | timeout => simp only [hev] at hne; exact absurd rfl hne

theorem evalAltsF_mono (ev ev' : Parser → Nat → EvalRes) (u : Parser) (q : List Char)
    (h : ∀ p s, ev p s ≠ .timeout → ev' p s = ev p s) :
    ∀ ps s, evalAltsF ev u q ps s ≠ .timeout →
      evalAltsF ev' u q ps s = evalAltsF ev u q ps s := by
  intro ps
  induction ps with
  | nil => intro s _; rfl
  | cons p ps ih =>
      intro s hne
      simp only [evalAltsF] at hne ⊢
      cases hev : ev p s with
      | ok r s' =>
          rw [h p s (by simp [hev])]
          simp only [hev]
      | err e =>
          rw [h p s (by simp [hev])]
          simp only [hev] at hne ⊢
          cases e with
          | parseExc m => exact ih s hne
          | crash m => rfl
      | timeout => simp only [hev] at hne; exact absurd rfl hne

theorem eval_mono_succ :
    ∀ f p q s, eval f p q s ≠ .timeout → eval (f+1) p q s = eval f p q s := by
  intro f
  induction f with
  | zero => intro p q s hne; exact absurd rfl hne
  | succ f ih =>
      intro p q s hne
      cases p with
      | literal lit => rfl
      | id p => exact ih p q s hne
      | map p fn =>
          simp only [eval] at hne ⊢
          cases hev : eval f p q s with
          | ok v s' =>
              rw [ih p q s (by simp [hev])]
              simp only [hev]
          | err e =>
              rw [ih p q s (by simp [hev])]
              simp only [hev]
          | timeout => simp only [hev] at hne; exact absurd rfl hne
      | drop p =>
          simp only [eval] at hne ⊢
          cases hev : eval f p q s with
          | ok v s' =>
              rw [ih p q s (by simp [hev])]
              simp only [hev]
          | err e =>
              rw [ih p q s (by simp [hev])]
              simp only [hev]
          | timeout => simp only [hev] at hne; exact absurd rfl hne
      | concat ps =>
          simp only [eval] at hne ⊢
          exact evalSeqF_mono _ _ (fun p' s' h' => ih p' q s' h') ps s [] hne
      | union ps =>
          simp only [eval] at hne ⊢
          exact evalAltsF_mono _ _ _ _ (fun p' s' h' => ih p' q s' h') ps s hne
      | rep p mn mx =>
          simp only [eval] at hne ⊢
          cases hmin : evalMinF (fun s' => eval f p q s') mn s [] with
          | ok rs s₁ =>
              rw [evalMinF_mono _ _ (fun s' h' => ih p q s' h') mn s [] (by simp [hmin]),
                hmin]
              simp only [hmin] at hne
              cases mx with
              | some n =>
                  exact evalMoreF_mono _ _ (fun s' h' => ih p q s' h') (n - mn) s₁ rs hne
              | none =>
                  exact evalMoreInfF_mono _ _ (fun s' h' => ih p q s' h') f (f+1) s₁ rs
                    (by omega) hne
          | err e =>
              rw [evalMinF_mono _ _ (fun s' h' => ih p q s' h') mn s [] (by simp [hmin]),
                hmin]
              cases e <;> rfl
          | timeout => simp only [hmin] at hne; exact absurd rfl hne

/-- Fuel monotonicity: a result other than `timeout` is stable under any
fuel increase. -/
theorem eval_mono {f f' : Nat} (hf : f ≤ f') {p : Parser} {q : List Char} {s : Nat}
    (hne : eval f p q s ≠ .timeout) : eval f' p q s = eval f p q s := by
  induction f' with
  | zero =>
      have : f = 0 := by omega
      subst this; rfl
  | succ f' ih =>
      rcases Nat.lt_or_ge f (f' + 1) with hlt | hge
      · have hle : f ≤ f' := by omega
        rw [eval_mono_succ f' p q s, ih hle]
        rw [ih hle]; exact hne
      · have : f = f' + 1 := by omega
        subst this; rfl

/-! ### Description rendering only crashes with a `TypeError` -/

/-- When a `__str__` method raises, the exception is a `TypeError` (never a
`ParseException`). -/
theorem pyStr_crash : ∀ p e, pyStr p = .error e → e = .crash "TypeError"
  | .literal _, e, h => by simp [pyStr] at h
  | .id p, e, h => pyStr_crash p e h
  | .map p _, e, h => pyStr_crash p e h
  | .drop p, e, h => pyStr_crash p e h
  | .rep p mn mx, e, h => by
      simp only [pyStr] at h
      cases hp : pyStr p with
      | error e' =>
          rw [hp] at h
          simp only [Except.error.injEq] at h
          subst h
          exact pyStr_crash p e' hp
      | ok d =>
          rw [hp] at h
          cases mx with
          | none =>
              split_ifs at h
              all_goals simp_all [eq_comm]
          | some n => simp at h
  | .concat _, e, h => by
      simp only [pyStr, Except.error.injEq] at h
      exact h.symm
  | .union _, e, h => by
      simp only [pyStr, Except.error.injEq] at h
      exact h.symm

/-! ### Cursor bounds

Starting from a cursor within the input, every successful evaluation ends
with a cursor within the input (so a cursor that is not the full length is
strictly below it). -/

theorem evalMinF_bound (ev : Nat → EvalRes) (L : Nat)
    (hb : ∀ s v s', s ≤ L → ev s = .ok v s' → s' ≤ L) :
    ∀ k s rs vs s', s ≤ L → evalMinF ev k s rs = .ok vs s' → s' ≤ L := by
  intro k
  induction k with
  | zero =>
      intro s rs vs s' hs h
      simp only [evalMinF, LoopRes.ok.injEq] at h
      omega
  | succ k ih =>
      intro s rs vs s' hs h
      simp only [evalMinF] at h
      cases hev : ev s with
      | ok r s₁ =>
          rw [hev] at h
          exact ih s₁ (rs ++ [r]) vs s' (hb s r s₁ hs hev) h
      | err e => rw [hev] at h; simp at h
      | timeout => rw [hev] at h; simp at h

theorem evalMoreF_bound (ev : Nat → EvalRes) (L : Nat)
    (hb : ∀ s v s', s ≤ L → ev s = .ok v s' → s' ≤ L) :
    ∀ k s rs v s', s ≤ L → evalMoreF ev k s rs = .ok v s' → s' ≤ L := by
  intro k
  induction k with
  | zero =>
      intro s rs v s' hs h
      simp only [evalMoreF, EvalRes.ok.injEq] at h
      omega
  | succ k ih =>
      intro s rs v s' hs h
      simp only [evalMoreF] at h
      cases hev : ev s with
      | ok r s₁ =>
          rw [hev] at h
          exact ih s₁ (rs ++ [r]) v s' (hb s r s₁ hs hev) h
      | err e =>
          rw [hev] at h
          cases e with
          | parseExc m => simp only [EvalRes.ok.injEq] at h; omega
          | crash m => simp at h
      | timeout => rw [hev] at h; simp at h

theorem evalMoreInfF_bound (ev : Nat → EvalRes) (L : Nat)
    (hb : ∀ s v s', s ≤ L → ev s = .ok v s' → s' ≤ L) :
    ∀ k s rs v s', s ≤ L → evalMoreInfF ev k s rs = .ok v s' → s' ≤ L := by
  intro k
  induction k with
  | zero => intro s rs v s' _ h; simp [evalMoreInfF] at h
  | succ k ih =>
      intro s rs v s' hs h
      simp only [evalMoreInfF] at h
      cases hev : ev s with
      | ok r s₁ =>
          rw [hev] at h
          exact ih s₁ (rs ++ [r]) v s' (hb s r s₁ hs hev) h
      | err e =>
          rw [hev] at h
          cases e with
          | parseExc m => simp only [EvalRes.ok.injEq] at h; omega
          | crash m => simp at h
      | timeout => rw [hev] at h; simp at h

theorem evalSeqF_bound (ev : Parser → Nat → EvalRes) (L : Nat)
    (hb : ∀ p s v s', s ≤ L → ev p s = .ok v s' → s' ≤ L) :
    ∀ ps s rs v s', s ≤ L → evalSeqF ev ps s rs = .ok v s' → s' ≤ L := by
  intro ps
  induction ps with
  | nil =>
      intro s rs v s' hs h
      simp only [evalSeqF, EvalRes.ok.injEq] at h
      omega
  | cons p ps ih =>
      intro s rs v s' hs h
      simp only [evalSeqF] at h
      cases hev : ev p s with
      | ok r s₁ =>
          rw [hev] at h
          exact ih s₁ _ v s' (hb p s r s₁ hs hev) h
      | err e => rw [hev] at h; simp at h
      | timeout => rw [hev] at h; simp at h

theorem evalAltsF_bound (ev : Parser → Nat → EvalRes) (u : Parser) (q : List Char) (L : Nat)
    (hb : ∀ p s v s', s ≤ L → ev p s = .ok v s' → s' ≤ L) :
    ∀ ps s v s', s ≤ L → evalAltsF ev u q ps s = .ok v s' → s' ≤ L := by
  intro ps
  induction ps with
  | nil => intro s v s' _ h; simp [evalAltsF] at h
  | cons p ps ih =>
      intro s v s' hs h
      simp only [evalAltsF] at h
      cases hev : ev p s with
      | ok r s₁ =>
          rw [hev] at h
          simp only [EvalRes.ok.injEq] at h
          have := hb p s r s₁ hs hev
          omega
      | err e =>
          rw [hev] at h
          cases e with
          | parseExc m => exact ih s v s' hs h
          | crash m => simp at h
      | timeout => rw [hev] at h; simp at h

/-- A successful evaluation never moves the cursor past the end of the
input. -/
theorem eval_bound :
    ∀ f p q s v s', s ≤ q.length → eval f p q s = .ok v s' → s' ≤ q.length := by
  intro f
  induction f with
  | zero => intro p q s v s' _ h; simp [eval] at h
  | succ f ih =>
      intro p q s v s' hs h
      cases p with
      | literal lit =>
          simp only [eval] at h
          by_cases hpre : lit.data.isPrefixOf (q.drop s)
          · rw [if_pos hpre] at h
            simp only [EvalRes.ok.injEq] at h
            have hlen : lit.data.length ≤ (q.drop s).length :=
              List.IsPrefix.length_le (List.isPrefixOf_iff_prefix.mp hpre)
            rw [List.length_drop] at hlen
            have hld : lit.length = lit.data.length := rfl
            omega
          · rw [if_neg hpre] at h; simp at h
      | id p => exact ih p q s v s' hs h
      | map p fn =>
          simp only [eval] at h
          cases hev : eval f p q s with
          | ok v₀ s₁ =>
              simp only [hev] at h
              cases hfn : fn v₀ with
              | ok v₁ =>
                  simp only [hfn] at h
                  simp only [EvalRes.ok.injEq] at h
                  have := ih p q s v₀ s₁ hs hev
                  omega
              | error e => simp only [hfn] at h; simp at h
          | err e => rw [hev] at h; simp at h
          | timeout => rw [hev] at h; simp at h
      | drop p =>
          simp only [eval] at h
          cases hev : eval f p q s with
          | ok v₀ s₁ =>
              rw [hev] at h
              simp only [EvalRes.ok.injEq] at h
              have := ih p q s v₀ s₁ hs hev
              omega
          | err e => rw [hev] at h; simp at h
          | timeout => rw [hev] at h; simp at h
      | concat ps =>
          simp only [eval] at h
          exact evalSeqF_bound _ q.length (fun p' s₀ v₀ s₁ h₀ h₁ => ih p' q s₀ v₀ s₁ h₀ h₁)
            ps s [] v s' hs h
      | union ps =>
          simp only [eval] at h
          exact evalAltsF_bound _ _ _ q.length (fun p' s₀ v₀ s₁ h₀ h₁ => ih p' q s₀ v₀ s₁ h₀ h₁)
            ps s v s' hs h
      | rep p mn mx =>
          simp only [eval] at h
          cases hmin : evalMinF (fun s₀ => eval f p q s₀) mn s [] with
          | ok rs s₁ =>
              rw [hmin] at h
              have hs₁ : s₁ ≤ q.length :=
                evalMinF_bound _ q.length (fun s₀ v₀ s₂ h₀ h₁ => ih p q s₀ v₀ s₂ h₀ h₁)
                  mn s [] rs s₁ hs hmin
              cases mx with
              | some n =>
                  exact evalMoreF_bound _ q.length
                    (fun s₀ v₀ s₂ h₀ h₁ => ih p q s₀ v₀ s₂ h₀ h₁) (n - mn) s₁ rs v s' hs₁ h
              | none =>
                  exact evalMoreInfF_bound _ q.length
                    (fun s₀ v₀ s₂ h₀ h₁ => ih p q s₀ v₀ s₂ h₀ h₁) f s₁ rs v s' hs₁ h
          | err e =>
              rw [hmin] at h
              cases e with
              | parseExc m =>
                  cases hp : pyStr p with
                  | ok d => rw [hp] at h; simp at h
                  | error e' => rw [hp] at h; simp at h
              | crash m => simp at h
          | timeout => rw [hmin] at h; simp at h

/-! ### Sequential runs of child lists (specification side)

`runChildren` evaluates a list of parsers in order, threading the cursor
and collecting every produced value (including `None`s); it is the
specification-level description of what a `Sequence` does before the
`None`-filtering of its result list. -/

def runChildren (ev : Parser → Nat → EvalRes) : List Parser → Nat → LoopRes
  | [], s => .ok [] s
  | p :: ps, s =>
      match ev p s with
      | .ok v s' =>
          match runChildren ev ps s' with
          | .ok vs e => .ok (v :: vs) e
          | r => r
      | .err e => .err e
      | .timeout => .timeout

theorem evalSeqF_eq_runChildren (ev : Parser → Nat → EvalRes) :
    ∀ ps s rs, evalSeqF ev ps s rs =
      match runChildren ev ps s with
      | .ok vs e => .ok (.list (rs ++ vs.filter isNotNone)) e
      | .err e => .err e
      | .timeout => .timeout := by
  intro ps
  induction ps with
  | nil => intro s rs; simp [evalSeqF, runChildren]
  | cons p ps ih =>
      intro s rs
      simp only [evalSeqF, runChildren]
      cases hev : ev p s with
      | ok r s' =>
          simp only [hev]
          rw [ih s' (if isNotNone r then rs ++ [r] else rs)]
          cases hrun : runChildren ev ps s' with
          | ok vs e =>
              simp only [List.filter_cons]
              cases hr : isNotNone r with
              | false => simp [hr]
              | true => simp [hr]
          | err e => rfl
          | timeout => rfl
      | err e => simp only [hev]
      | timeout => simp only [hev]

/-! ## Claim theorems -/

/-- Claim C2 (code bug): when every alternative of a `Union` fails, the
source intends to raise `ParseException.from_state(self, query, start)`
naming the composite choice, but `Union.__str__` joins the parser objects
themselves and returns `None`, so evaluation raises a `TypeError` instead
of the intended `ParseException`.  Concretely, `(Literal('a') | Literal('b'))`
applied to `"c"` at cursor 0 crashes. -/
theorem union_all_fail_raises_typeerror :
    eval 5 (.union [.literal "a", .literal "b"]) "c".data 0 = .err (.crash "TypeError") ∧
    (match eval 5 (.union [.literal "a", .literal "b"]) "c".data 0 with
     | .err (.parseExc _) => False
     | _ => True) := by
  exact ⟨rfl, trivial⟩

/-- Claim C3: for parsers `a`, `b`, `c` that are not `Id`-wrapped, `(a+b)+c`
and `a+(b+c)` build the very same flat `Concat` node (so they behave
identically on every input), while an `Id`-wrapped operand is kept as a
single un-merged child of the enclosing flat list. -/
theorem add_flattening_assoc :
    ∀ a b c : Parser, isId a = false → isId b = false → isId c = false →
      (padd (padd a b) c = padd a (padd b c)) ∧
      (∀ f q s, eval f (padd (padd a b) c) q s = eval f (padd a (padd b c)) q s) ∧
      (∀ x : Parser, flatSeq (.id x) = [.id x]) ∧
      (∀ x y : Parser, padd y (.id x) = .concat (flatSeq y ++ [.id x])) := by
  intro a b c _ _ _
  have hassoc : padd (padd a b) c = padd a (padd b c) := by
    simp only [padd, flatSeq, List.append_assoc]
  exact ⟨hassoc, fun f q s => by rw [hassoc], fun x => rfl, fun x y => rfl⟩

/-- Witness for `add_flattening_assoc` at three literals. -/
theorem add_flattening_assoc_witness :
    isId (Parser.literal "a") = false ∧ isId (Parser.literal "b") = false ∧
    isId (Parser.literal "c") = false ∧
    padd (padd (.literal "a") (.literal "b")) (.literal "c") =
      padd (.literal "a") (padd (.literal "b") (.literal "c")) :=
  ⟨rfl, rfl, rfl,
    (add_flattening_assoc (.literal "a") (.literal "b") (.literal "c") rfl rfl rfl).1⟩

/-- Claim C8: `Id(p)` delegates evaluation exactly to `p` (same value, same
cursor, same failure, at every input and start position), and differs only
in description handling and in being excluded from `__add__` flattening —
in fact `Id.__str__` delegates too, so even the description is the
child's. -/
theorem id_delegates :
    ∀ f p q s,
      eval (f+1) (.id p) q s = eval f p q s ∧
      pyStr (.id p) = pyStr p ∧
      flatSeq (.id p) = [.id p] := by
  intro f p q s
  exact ⟨rfl, rfl, rfl⟩

/-- Claim C10: a `Concat` (`Sequence`) evaluates every child in order
(each must succeed and advances the cursor) and its result list is the
list of child values with every `None` omitted — so its length is the
number of children that produced a non-`None` value.  A `Drop` child
always produces `None`, and an out-of-range `Nth` selection produces
`None` rather than failing. -/
theorem concat_omits_none_values :
    ∀ f ps q s,
      (eval (f+1) (.concat ps) q s =
        match runChildren (fun p' s' => eval f p' q s') ps s with
        | .ok vs e => .ok (.list (vs.filter isNotNone)) e
        | .err e => .err e
        | .timeout => .timeout) ∧
      (∀ vs : List Value, (vs.filter isNotNone).length = vs.countP isNotNone) ∧
      (∀ p v s', eval f p q s = .ok v s' → eval (f+1) (.drop p) q s = .ok Value.none s') ∧
      (∀ (i : Nat) (vs : List Value), nthFn i (.list vs) =
        if h : i < vs.length then .ok (vs.get ⟨i, h⟩) else .ok Value.none) := by
  intro f ps q s
  refine ⟨?_, ?_, ?_, ?_⟩
  · have h1 : eval (f+1) (.concat ps) q s = evalSeqF (fun p' s' => eval f p' q s') ps s [] :=
      rfl
    rw [h1, evalSeqF_eq_runChildren]
    cases runChildren (fun p' s' => eval f p' q s') ps s <;> simp
  · intro vs
    exact (List.countP_eq_length_filter _ _).symm
  · intro p v s' h
    simp only [eval, h]
  · intro i vs
    simp only [nthFn, pyLen, pyGetItem]
    split_ifs with hi
    · rfl
    · rfl

/-- Witness for `concat_omits_none_values`: a sequence of a dropped literal
and a plain literal keeps only the plain literal's value. -/
theorem concat_omits_none_values_witness :
    eval 1 (.literal "a") "ab".data 0 = .ok (.str "a") 1 ∧
    eval 2 (.drop (.literal "a")) "ab".data 0 = .ok Value.none 1 ∧
    eval 3 (.concat [.drop (.literal "a"), .literal "b"]) "ab".data 0 =
      .ok (.list [.str "b"]) 2 := by
  refine ⟨rfl, ?_, ?_⟩
  · exact (concat_omits_none_values 1 [] "ab".data 0).2.2.1 (.literal "a") (.str "a") 1 rfl
  · have h := (concat_omits_none_values 2 [.drop (.literal "a"), .literal "b"] "ab".data 0).1
    rw [h]
    rfl

theorem evalAltsF_skips_failures (ev : Parser → Nat → EvalRes) (u : Parser) (q : List Char) :
    ∀ ps₁ (a : Parser) ps₂ s v s',
      (∀ p ∈ ps₁, ∃ m, ev p s = .err (.parseExc m)) →
      ev a s = .ok v s' →
      evalAltsF ev u q (ps₁ ++ a :: ps₂) s = .ok v s' := by
  intro ps₁
  induction ps₁ with
  | nil =>
      intro a ps₂ s v s' _ ha
      simp only [List.nil_append, evalAltsF, ha]
  | cons p ps₁ ih =>
      intro a ps₂ s v s' hfail ha
      obtain ⟨m, hm⟩ := hfail p (by simp)
      simp only [List.cons_append, evalAltsF, hm]
      exact ih a ps₂ s v s' (fun p' hp' => hfail p' (by simp [hp'])) ha

/-- Claim C5: a `Union` (`Choice`) tries its alternatives in listed order,
each attempt starting at the same original cursor, and returns the result
of the first alternative that succeeds; in particular when `a` and `b`
both succeed at the cursor, `Choice([a,b])` returns `a`'s result and
`Choice([b,a])` returns `b`'s. -/
theorem union_ordered_choice :
    ∀ f q s,
      (∀ ps₁ (a : Parser) ps₂ v s',
        (∀ p ∈ ps₁, ∃ m, eval f p q s = .err (.parseExc m)) →
        eval f a q s = .ok v s' →
        eval (f+1) (.union (ps₁ ++ a :: ps₂)) q s = .ok v s') ∧
      (∀ a b va sa vb sb,
        eval f a q s = .ok va sa → eval f b q s = .ok vb sb →
        eval (f+1) (.union [a, b]) q s = .ok va sa ∧
        eval (f+1) (.union [b, a]) q s = .ok vb sb) := by
  intro f q s
  constructor
  · intro ps₁ a ps₂ v s' hfail ha
    show evalAltsF (fun p' s₀ => eval f p' q s₀) (.union (ps₁ ++ a :: ps₂)) q
      (ps₁ ++ a :: ps₂) s = .ok v s'
    exact evalAltsF_skips_failures _ _ _ ps₁ a ps₂ s v s' hfail ha
  · intro a b va sa vb sb ha hb
    constructor
    · show evalAltsF (fun p' s₀ => eval f p' q s₀) (.union [a, b]) q [a, b] s = .ok va sa
      simp only [evalAltsF, ha]
    · show evalAltsF (fun p' s₀ => eval f p' q s₀) (.union [b, a]) q [b, a] s = .ok vb sb
      simp only [evalAltsF, hb]

/-- Witness for `union_ordered_choice`: `Literal("a")` and `Literal("ab")`
overlap on input `"ab"`; each ordering yields the first-listed result, and
a failing first alternative is skipped. -/
theorem union_ordered_choice_witness :
    eval 1 (.literal "x") "ab".data 0 = .err (.parseExc "Expected x. Query: ab. Index: 0") ∧
    eval 1 (.literal "a") "ab".data 0 = .ok (.str "a") 1 ∧
    eval 1 (.literal "ab") "ab".data 0 = .ok (.str "ab") 2 ∧
    eval 2 (.union [.literal "x", .literal "a"]) "ab".data 0 = .ok (.str "a") 1 ∧
    eval 2 (.union [.literal "a", .literal "ab"]) "ab".data 0 = .ok (.str "a") 1 ∧
    eval 2 (.union [.literal "ab", .literal "a"]) "ab".data 0 = .ok (.str "ab") 2 := by
  refine ⟨rfl, rfl, rfl, ?_, ?_, ?_⟩
  · exact (union_ordered_choice 1 "ab".data 0).1 [.literal "x"] (.literal "a") []
      (.str "a") 1 (by intro p hp; simp at hp; subst hp; exact ⟨_, rfl⟩) rfl
  · exact ((union_ordered_choice 1 "ab".data 0).2 (.literal "a") (.literal "ab")
      (.str "a") 1 (.str "ab") 2 rfl rfl).1
  · exact ((union_ordered_choice 1 "ab".data 0).2 (.literal "a") (.literal "ab")
      (.str "a") 1 (.str "ab") 2 rfl rfl).2

theorem eval_rep_zero_one (f : Nat) (p : Parser) (q : List Char) (s : Nat) :
    eval (f+1) (.rep p 0 (some 1)) q s =
      match eval f p q s with
      | .ok r s' => .ok (.list [r]) s'
      | .err (.parseExc _) => .ok (.list []) s
      | .err e => .err e
      | .timeout => .timeout := by
  show evalMoreF (fun s' => eval f p q s') (0+1) s [] = _
  simp only [evalMoreF]
  cases hev : eval f p q s with
  | ok r s' => simp only [hev]; rfl
  | err e => cases e <;> simp only [hev]
  | timeout => simp only [hev]

/-- Claim C6: wherever `p` fails with a `ParseException`, `Optional(p)`
succeeds with value `None` and an unchanged cursor; wherever `p` succeeds,
`Optional(p)` returns `p`'s value and cursor.  (Failures that are not
`ParseException`s — e.g. the broken `__str__` `TypeError`s — are outside
the combinator's catch and are not covered.) -/
theorem optional_never_fails :
    ∀ f p q s,
      (∀ m, eval f p q s = .err (.parseExc m) →
        eval (f+2) (Optional p) q s = .ok Value.none s) ∧
      (∀ v s', eval f p q s = .ok v s' →
        eval (f+2) (Optional p) q s = .ok v s') := by
  intro f p q s
  have hmap : eval (f+2) (Optional p) q s =
      match eval (f+1) (.rep p 0 (some 1)) q s with
      | .ok v s' =>
          (match nthFn 0 v with
           | .ok v' => .ok v' s'
           | .error e => .err e)
      | .err e => .err e
      | .timeout => .timeout := rfl
  constructor
  · intro m h
    rw [hmap, eval_rep_zero_one, h]
    rfl
  · intro v s' h
    rw [hmap, eval_rep_zero_one, h]
    rfl

/-- Witness for `optional_never_fails` at `Literal("a")` on inputs `"b"`
(failure) and `"a"` (success). -/
theorem optional_never_fails_witness :
    eval 1 (.literal "a") "b".data 0 = .err (.parseExc "Expected a. Query: b. Index: 0") ∧
    eval 3 (Optional (.literal "a")) "b".data 0 = .ok Value.none 0 ∧
    eval 1 (.literal "a") "a".data 0 = .ok (.str "a") 1 ∧
    eval 3 (Optional (.literal "a")) "a".data 0 = .ok (.str "a") 1 := by
  refine ⟨rfl, ?_, rfl, ?_⟩
  · exact (optional_never_fails 1 (.literal "a") "b".data 0).1
      "Expected a. Query: b. Index: 0" rfl
  · exact (optional_never_fails 1 (.literal "a") "a".data 0).2 (.str "a") 1 rfl

/-! ### Where errors come from

Every exception returned by a loop combinator either comes from a child
evaluation or (for `Union`) is the `from_state` exception of the node
itself. -/

theorem evalMinF_err (ev : Nat → EvalRes) :
    ∀ k s rs e, evalMinF ev k s rs = .err e → ∃ s', ev s' = .err e := by
  intro k
  induction k with
  | zero => intro s rs e h; simp [evalMinF] at h
  | succ k ih =>
      intro s rs e h
      simp only [evalMinF] at h
      cases hev : ev s with
      | ok r s' => rw [hev] at h; exact ih s' _ e h
      | err e' =>
          rw [hev] at h
          simp only [LoopRes.err.injEq] at h
          exact ⟨s, by rw [hev, h]⟩
      | timeout => rw [hev] at h; simp at h

theorem evalMoreF_err (ev : Nat → EvalRes) :
    ∀ k s rs e, evalMoreF ev k s rs = .err e → ∃ s', ev s' = .err e := by
  intro k
  induction k with
  | zero => intro s rs e h; simp [evalMoreF] at h
  | succ k ih =>
      intro s rs e h
      simp only [evalMoreF] at h
      cases hev : ev s with
      | ok r s' => rw [hev] at h; exact ih s' _ e h
      | err e' =>
          rw [hev] at h
          cases e' with
          | parseExc m => simp at h
          | crash m =>
              simp only [EvalRes.err.injEq] at h
              exact ⟨s, by rw [hev, h]⟩
      | timeout => rw [hev] at h; simp at h

theorem evalMoreInfF_err (ev : Nat → EvalRes) :
    ∀ k s rs e, evalMoreInfF ev k s rs = .err e → ∃ s', ev s' = .err e := by
  intro k
  induction k with
  | zero => intro s rs e h; simp [evalMoreInfF] at h
  | succ k ih =>
      intro s rs e h
      simp only [evalMoreInfF] at h
      cases hev : ev s with
      | ok r s' => rw [hev] at h; exact ih s' _ e h
      | err e' =>
          rw [hev] at h
          cases e' with
          | parseExc m => simp at h
          | crash m =>
              simp only [EvalRes.err.injEq] at h
              exact ⟨s, by rw [hev, h]⟩
      | timeout => rw [hev] at h; simp at h

theorem evalSeqF_err (ev : Parser → Nat → EvalRes) :
    ∀ ps s rs e, evalSeqF ev ps s rs = .err e → ∃ p' s', p' ∈ ps ∧ ev p' s' = .err e := by
  intro ps
  induction ps with
  | nil => intro s rs e h; simp [evalSeqF] at h
  | cons p ps ih =>
      intro s rs e h
      simp only [evalSeqF] at h
      cases hev : ev p s with
      | ok r s' =>
          rw [hev] at h
          obtain ⟨p', s'', hp', he⟩ := ih s' _ e h
          exact ⟨p', s'', by simp [hp'], he⟩
      | err e' =>
          rw [hev] at h
          simp only [EvalRes.err.injEq] at h
          exact ⟨p, s, by simp, by rw [hev, h]⟩
      | timeout => rw [hev] at h; simp at h

theorem evalAltsF_err (ev : Parser → Nat → EvalRes) (u : Parser) (q : List Char) :
    ∀ ps s e, evalAltsF ev u q ps s = .err e →
      (∃ p' s', p' ∈ ps ∧ ev p' s' = .err e) ∨ e = fromState u q s := by
  intro ps
  induction ps with
  | nil =>
      intro s e h
      simp only [evalAltsF, EvalRes.err.injEq] at h
      exact Or.inr h.symm
  | cons p ps ih =>
      intro s e h
      simp only [evalAltsF] at h
      cases hev : ev p s with
      | ok r s' => rw [hev] at h; simp at h
      | err e' =>
          rw [hev] at h
          cases e' with
          | parseExc m =>
              rcases ih s e h with ⟨p', s'', hp', he⟩ | hfs
              · exact Or.inl ⟨p', s'', by simp [hp'], he⟩
              · exact Or.inr hfs
          | crash m =>
              simp only [EvalRes.err.injEq] at h
              exact Or.inl ⟨p, s, by simp, by rw [hev, h]⟩
      | timeout => rw [hev] at h; simp at h

/-! ### Engine failure messages start with "Expected"

All `ParseException`s created inside `_parse` methods have messages of the
form `Expected ...`; only the top-level `parse` creates the
`Remaining query after parsing: ...` message.  Because a `Map` transform
is arbitrary user code, the statement assumes the transforms of the parser
are "benign": they never raise a `ParseException` themselves (true of all
transforms in the source: the `Nth` and `Joined` lambdas only raise
`TypeError`/`IndexError`). -/

def benignFn (fn : Value → Except PErr Value) : Prop :=
  ∀ v m, fn v ≠ .error (.parseExc m)

/-- All `Map` transforms inside the parser are benign. -/
inductive MapsBenign : Parser → Prop where
  | literal (lit : String) : MapsBenign (.literal lit)
  | id {p : Parser} : MapsBenign p → MapsBenign (.id p)
  | map {p : Parser} {fn : Value → Except PErr Value} :
      benignFn fn → MapsBenign p → MapsBenign (.map p fn)
  | drop {p : Parser} : MapsBenign p → MapsBenign (.drop p)
  | rep {p : Parser} (mn : Nat) (mx : Option Nat) :
      MapsBenign p → MapsBenign (.rep p mn mx)
  | concat {ps : List Parser} : (∀ p ∈ ps, MapsBenign p) → MapsBenign (.concat ps)
  | union {ps : List Parser} : (∀ p ∈ ps, MapsBenign p) → MapsBenign (.union ps)

theorem expected_prefix_ext {head : String} (t : String)
    (hh : "Expected".data <+: head.data) : "Expected".data <+: (head ++ t).data := by
  rw [String.data_append]
  exact hh.trans (List.prefix_append _ _)

theorem eval_err_msg :
    ∀ f p q s msg, MapsBenign p → eval f p q s = .err (.parseExc msg) →
      "Expected".data <+: msg.data := by
  intro f
  induction f with
  | zero => intro p q s msg _ h; simp [eval] at h
  | succ f ih =>
      intro p q s msg hb h
      cases p with
      | literal lit =>
          simp only [eval] at h
          split_ifs at h with hpre
          simp only [fromState, pyStr, EvalRes.err.injEq, PErr.parseExc.injEq] at h
          subst h
          have h0 : "Expected".data <+: "Expected ".data := by decide
          exact expected_prefix_ext (toString s) (expected_prefix_ext ". Index: "
            (expected_prefix_ext (String.mk q) (expected_prefix_ext ". Query: "
              (expected_prefix_ext lit h0))))
      | id p =>
          cases hb with
          | id hbp => exact ih p q s msg hbp h
      | map p fn =>
          cases hb with
          | map hfn hbp =>
              simp only [eval] at h
              cases hev : eval f p q s with
              | ok v s' =>
                  simp only [hev] at h
                  cases hf : fn v with
                  | ok v' => simp only [hf] at h; simp at h
                  | error e =>
                      simp only [hf] at h
                      simp only [EvalRes.err.injEq] at h
                      exact absurd (by rw [hf, h]) (hfn v msg)
              | err e =>
                  rw [hev] at h
                  simp only [EvalRes.err.injEq] at h
                  exact ih p q s msg hbp (by rw [hev, h])
              | timeout => rw [hev] at h; simp at h
      | drop p =>
          cases hb with
          | drop hbp =>
              simp only [eval] at h
              cases hev : eval f p q s with
              | ok v s' => rw [hev] at h; simp at h
              | err e =>
                  rw [hev] at h
                  simp only [EvalRes.err.injEq] at h
                  exact ih p q s msg hbp (by rw [hev, h])
              | timeout => rw [hev] at h; simp at h
      | concat ps =>
          cases hb with
          | concat hall =>
              simp only [eval] at h
              obtain ⟨p', s', hp', he⟩ := evalSeqF_err _ ps s [] _ h
              exact ih p' q s' msg (hall p' hp') he
      | union ps =>
          cases hb with
          | union hall =>
              simp only [eval] at h
              rcases evalAltsF_err _ _ _ ps s _ h with ⟨p', s', hp', he⟩ | hfs
              · exact ih p' q s' msg (hall p' hp') he
              · simp only [fromState, pyStr] at hfs
                simp at hfs
      | rep p mn mx =>
          cases hb with
          | rep mn mx hbp =>
              simp only [eval] at h
              cases hmin : evalMinF (fun s₀ => eval f p q s₀) mn s [] with
              | ok rs s₁ =>
                  rw [hmin] at h
                  cases mx with
                  | some n =>
                      obtain ⟨s', he⟩ := evalMoreF_err _ (n - mn) s₁ rs _ h
                      exact ih p q s' msg hbp he
                  | none =>
                      obtain ⟨s', he⟩ := evalMoreInfF_err _ f s₁ rs _ h
                      exact ih p q s' msg hbp he
              | err e =>
                  rw [hmin] at h
                  cases e with
                  | parseExc m =>
                      cases hp : pyStr p with
                      | ok d =>
                          rw [hp] at h
                          simp only [EvalRes.err.injEq, PErr.parseExc.injEq] at h
                          subst h
                          have h0 : "Expected".data <+: "Expected at least ".data := by decide
                          exact expected_prefix_ext d (expected_prefix_ext " repetitions of "
                            (expected_prefix_ext (toString mn) h0))
                      | error e' =>
                          rw [hp] at h
                          simp only [EvalRes.err.injEq] at h
                          have := pyStr_crash p e' hp
                          rw [this] at h
                          simp at h
                  | crash m => simp at h
              | timeout => rw [hmin] at h; simp at h

/-- Claim C4: the top-level `parse` evaluates the root at cursor 0; a
success consuming the whole input returns the value, a success at cursor
`s < len(q)` raises the trailing-input `ParseException` naming the suffix
`q[s:]`; a success never overshoots the input, and (for parsers with
benign transforms) no internal evaluation ever produces the trailing-input
condition — internal `ParseException` messages all start with
`Expected`. -/
theorem parse_top_level :
    ∀ f p q,
      (∀ v, eval f p q 0 = .ok v q.length → parse f p q = .ok v) ∧
      (∀ v s, eval f p q 0 = .ok v s → s < q.length →
        parse f p q =
          .err (.parseExc ("Remaining query after parsing: " ++ String.mk (q.drop s)))) ∧
      (∀ v s, eval f p q 0 = .ok v s → s ≤ q.length) ∧
      (MapsBenign p → ∀ s msg, eval f p q s = .err (.parseExc msg) →
        "Expected".data <+: msg.data ∧
        ¬ "Remaining query after parsing: ".data <+: msg.data) := by
  intro f p q
  refine ⟨?_, ?_, ?_, ?_⟩
  · intro v h
    simp [parse, h]
  · intro v s h hlt
    simp only [parse, h]
    rw [if_pos (by omega)]
  · intro v s h
    exact eval_bound f p q 0 v s (Nat.zero_le _) h
  · intro hb s msg h
    have hE := eval_err_msg f p q s msg hb h
    refine ⟨hE, ?_⟩
    intro hR
    rcases List.prefix_or_prefix_of_prefix hE hR with hc | hc
    · exact absurd hc (by decide)
    · exact absurd hc (by decide)

/-- Witness for `parse_top_level` at `Literal("a")`. -/
theorem parse_top_level_witness :
    parse 1 (.literal "a") "a".data = .ok (.str "a") ∧
    parse 1 (.literal "a") "ab".data =
      .err (.parseExc ("Remaining query after parsing: " ++ String.mk ("ab".data.drop 1))) ∧
    (1 : Nat) ≤ "ab".data.length ∧
    ("Expected".data <+: "Expected a. Query: b. Index: 0".data ∧
      ¬ "Remaining query after parsing: ".data <+:
        "Expected a. Query: b. Index: 0".data) := by
  refine ⟨?_, ?_, ?_, ?_⟩
  · exact (parse_top_level 1 (.literal "a") "a".data).1 (.str "a") rfl
  · exact (parse_top_level 1 (.literal "a") "ab".data).2.1 (.str "a") 1 rfl (by decide)
  · exact (parse_top_level 1 (.literal "a") "ab".data).2.2.1 (.str "a") 1 rfl
  · exact (parse_top_level 1 (.literal "a") "b".data).2.2.2 (.literal "a") 0
      "Expected a. Query: b. Index: 0" rfl

/-- Claim C7 counterexample: the `Repeat` minimum-repetitions failure
message (`'Expected at least %s repetitions of %s'`) contains neither the
input nor the cursor offset, and the trailing-input message
(`'Remaining query after parsing: %s'`) contains neither the failing
node's description nor the cursor offset. -/
theorem failure_message_missing_data :
    eval 5 (.rep (.literal "abc") 1 (some 1)) "xyz".data 0 =
      .err (.parseExc "Expected at least 1 repetitions of abc") ∧
    ¬ ("xyz".data <:+: "Expected at least 1 repetitions of abc".data) ∧
    ¬ ("0".data <:+: "Expected at least 1 repetitions of abc".data) ∧
    parse 1 (.literal "zz") "zzb".data =
      .err (.parseExc "Remaining query after parsing: b") ∧
    ¬ ("zz".data <:+: "Remaining query after parsing: b".data) ∧
    ¬ ("2".data <:+: "Remaining query after parsing: b".data) := by
  refine ⟨rfl, by decide, by decide, rfl, by decide, by decide⟩

/-- Claim C7 (amended): failures built by `ParseException.from_state` —
terminal mismatches and the all-alternatives-failed `Choice` (when the
description renders) — carry all three data elements (description, input,
cursor offset); but the `Repeat` minimum-repetitions failure carries only
the minimum count and the child's description, and the trailing-input
failure carries only the unconsumed suffix. -/
theorem failure_message_content :
    (∀ (p : Parser) (q : List Char) (s : Nat) (d : String), pyStr p = .ok d →
      ∃ msg, fromState p q s = .parseExc msg ∧
        d.data <:+: msg.data ∧ q <:+: msg.data ∧ (toString s).data <:+: msg.data) ∧
    (∀ (f : Nat) (p : Parser) (mn : Nat) (mx : Option Nat) (q : List Char) (s : Nat)
        (d : String) (m : String), pyStr p = .ok d →
      evalMinF (fun s' => eval f p q s') mn s [] = .err (.parseExc m) →
      eval (f+1) (.rep p mn mx) q s =
        .err (.parseExc ("Expected at least " ++ toString mn ++ " repetitions of " ++ d))) ∧
    (∀ (f : Nat) (p : Parser) (q : List Char) (v : Value) (s : Nat),
      eval f p q 0 = .ok v s → s ≠ q.length →
      parse f p q =
        .err (.parseExc ("Remaining query after parsing: " ++ String.mk (q.drop s)))) := by
  refine ⟨?_, ?_, ?_⟩
  · intro p q s d hp
    refine ⟨"Expected " ++ d ++ ". Query: " ++ String.mk q ++ ". Index: " ++ toString s,
      by simp [fromState, hp], ?_, ?_, ?_⟩
    · exact ⟨"Expected ".data,
        (". Query: " ++ String.mk q ++ ". Index: " ++ toString s).data,
        by simp [String.data_append, List.append_assoc]⟩
    · exact ⟨("Expected " ++ d ++ ". Query: ").data, (". Index: " ++ toString s).data,
        by simp [String.data_append, List.append_assoc]⟩
    · exact ⟨("Expected " ++ d ++ ". Query: " ++ String.mk q ++ ". Index: ").data, [],
        by simp [String.data_append, List.append_assoc]⟩
  · intro f p mn mx q s d m hp hmin
    show (match evalMinF (fun s' => eval f p q s') mn s [] with
          | .err (.parseExc _) =>
              (match pyStr p with
               | .ok d' =>
                   EvalRes.err (.parseExc ("Expected at least " ++ toString mn ++
                     " repetitions of " ++ d'))
               | .error e => .err e)
          | .err e => .err e
          | .timeout => .timeout
          | .ok rs s₁ =>
              match mx with
              | some n => evalMoreF (fun s' => eval f p q s') (n - mn) s₁ rs
              | Option.none => evalMoreInfF (fun s' => eval f p q s') f s₁ rs) =
        .err (.parseExc ("Expected at least " ++ toString mn ++ " repetitions of " ++ d))
    rw [hmin, hp]
  · intro f p q v s h hne
    simp [parse, h, hne]

/-- Witness for `failure_message_content` at concrete failures. -/
theorem failure_message_content_witness :
    (∃ msg, fromState (.literal "ab") "xy".data 3 = .parseExc msg ∧
      "ab".data <:+: msg.data ∧ "xy".data <:+: msg.data ∧ (toString 3).data <:+: msg.data) ∧
    eval 5 (.rep (.literal "abc") 1 (some 1)) "xyz".data 0 =
      .err (.parseExc ("Expected at least " ++ toString 1 ++ " repetitions of " ++ "abc")) ∧
    parse 1 (.literal "zz") "zzb".data =
      .err (.parseExc ("Remaining query after parsing: " ++
        String.mk ("zzb".data.drop 2))) := by
  refine ⟨?_, ?_, ?_⟩
  · exact failure_message_content.1 (.literal "ab") "xy".data 3 "ab" rfl
  · exact failure_message_content.2.1 4 (.literal "abc") 1 (some 1) "xyz".data 0 "abc"
      "Expected abc. Query: xyz. Index: 0" rfl rfl
  · exact failure_message_content.2.2 1 (.literal "zz") "zzb".data (.str "zz") 2 rfl
      (by decide)

/-! ### The two-step repetition algorithm (specification side)

`specAttempts` is spec step 1 — "attempt exactly `k` matches", returning
the ordered values and final cursor or the raw failure of the first
failing attempt; `specGreedy` / `specGreedyUnb` are spec step 2 —
"greedily attempt up to `k` more (resp. unboundedly many), stopping at
the first attempt that fails with a `ParseException` and swallowing
it". -/

def specAttempts (ev : Nat → EvalRes) : Nat → Nat → LoopRes
  | 0, s => .ok [] s
  | k+1, s =>
      match ev s with
      | .ok v s' =>
          match specAttempts ev k s' with
          | .ok vs e => .ok (v :: vs) e
          | r => r
      | .err e => .err e
      | .timeout => .timeout

def specGreedy (ev : Nat → EvalRes) : Nat → Nat → LoopRes
  | 0, s => .ok [] s
  | k+1, s =>
      match ev s with
      | .ok v s' =>
          match specGreedy ev k s' with
          | .ok vs e => .ok (v :: vs) e
          | r => r
      | .err (.parseExc _) => .ok [] s
      | .err e => .err e
      | .timeout => .timeout

def specGreedyUnb (ev : Nat → EvalRes) : Nat → Nat → LoopRes
  | 0, _ => .timeout
  | k+1, s =>
      match ev s with
      | .ok v s' =>
          match specGreedyUnb ev k s' with
          | .ok vs e => .ok (v :: vs) e
          | r => r
      | .err (.parseExc _) => .ok [] s
      | .err e => .err e
      | .timeout => .timeout

theorem evalMinF_eq_specAttempts (ev : Nat → EvalRes) :
    ∀ k s rs, evalMinF ev k s rs =
      match specAttempts ev k s with
      | .ok vs e => .ok (rs ++ vs) e
      | .err e => .err e
      | .timeout => .timeout := by
  intro k
  induction k with
  | zero => intro s rs; simp [evalMinF, specAttempts]
  | succ k ih =>
      intro s rs
      simp only [evalMinF, specAttempts]
      cases hev : ev s with
      | ok v s' =>
          simp only [hev]
          rw [ih s' (rs ++ [v])]
          cases hsp : specAttempts ev k s' with
          | ok vs e => simp
          | err e => rfl
          | timeout => rfl
      | err e => simp only [hev]
      | timeout => simp only [hev]

theorem evalMoreF_eq_specGreedy (ev : Nat → EvalRes) :
    ∀ k s rs, evalMoreF ev k s rs =
      match specGreedy ev k s with
      | .ok vs e => .ok (.list (rs ++ vs)) e
      | .err e => .err e
      | .timeout => .timeout := by
  intro k
  induction k with
  | zero => intro s rs; simp [evalMoreF, specGreedy]
  | succ k ih =>
      intro s rs
      simp only [evalMoreF, specGreedy]
      cases hev : ev s with
      | ok v s' =>
          simp only [hev]
          rw [ih s' (rs ++ [v])]
          cases hsp : specGreedy ev k s' with
          | ok vs e => simp
          | err e => rfl
          | timeout => rfl
      | err e => cases e <;> simp [hev]
      | timeout => simp only [hev]

theorem evalMoreInfF_eq_specGreedyUnb (ev : Nat → EvalRes) :
    ∀ k s rs, evalMoreInfF ev k s rs =
      match specGreedyUnb ev k s with
      | .ok vs e => .ok (.list (rs ++ vs)) e
      | .err e => .err e
      | .timeout => .timeout := by
  intro k
  induction k with
  | zero => intro s rs; simp [evalMoreInfF, specGreedyUnb]
  | succ k ih =>
      intro s rs
      simp only [evalMoreInfF, specGreedyUnb]
      cases hev : ev s with
      | ok v s' =>
          simp only [hev]
          rw [ih s' (rs ++ [v])]
          cases hsp : specGreedyUnb ev k s' with
          | ok vs e => simp
          | err e => rfl
          | timeout => rfl
      | err e => cases e <;> simp [hev]
      | timeout => simp only [hev]

theorem specAttempts_length (ev : Nat → EvalRes) :
    ∀ k s vs e, specAttempts ev k s = .ok vs e → vs.length = k := by
  intro k
  induction k with
  | zero =>
      intro s vs e h
      simp only [specAttempts, LoopRes.ok.injEq] at h
      simp [← h.1]
  | succ k ih =>
      intro s vs e h
      simp only [specAttempts] at h
      cases hev : ev s with
      | ok v s' =>
          simp only [hev] at h
          cases hsp : specAttempts ev k s' with
          | ok vs' e' =>
              simp only [hsp, LoopRes.ok.injEq] at h
              have := ih s' vs' e' hsp
              simp [← h.1, this]
          | err e' => simp only [hsp] at h; simp at h
          | timeout => simp only [hsp] at h; simp at h
      | err e' => simp only [hev] at h; simp at h
      | timeout => simp only [hev] at h; simp at h

theorem specGreedy_length (ev : Nat → EvalRes) :
    ∀ k s vs e, specGreedy ev k s = .ok vs e → vs.length ≤ k := by
  intro k
  induction k with
  | zero =>
      intro s vs e h
      simp only [specGreedy, LoopRes.ok.injEq] at h
      simp [← h.1]
  | succ k ih =>
      intro s vs e h
      simp only [specGreedy] at h
      cases hev : ev s with
      | ok v s' =>
          simp only [hev] at h
          cases hsp : specGreedy ev k s' with
          | ok vs' e' =>
              simp only [hsp, LoopRes.ok.injEq] at h
              have := ih s' vs' e' hsp
              simp only [← h.1, List.length_cons]
              omega
          | err e' => simp only [hsp] at h; simp at h
          | timeout => simp only [hsp] at h; simp at h
      | err e' =>
          simp only [hev] at h
          cases e' with
          | parseExc m =>
              simp only [LoopRes.ok.injEq] at h
              simp [← h.1]
          | crash m => simp at h
      | timeout => simp only [hev] at h; simp at h

/-- Claim C1 counterexample: when the repeated child is a bare `Concat`
(whose `__str__` is broken), a failure among the first `min` attempts does
*not* produce the distinguished "minimum repetitions" `ParseException`:
formatting `'Expected at least %s repetitions of %s'` calls `str` on the
child and raises `TypeError`.  `Repeat(Concat([Literal('a')]), 1, 1)` on
`"b"` crashes. -/
theorem repeat_min_composite_child_crashes :
    eval 6 (.rep (.concat [.literal "a"]) 1 (some 1)) "b".data 0 =
      .err (.crash "TypeError") ∧
    (match eval 6 (.rep (.concat [.literal "a"]) 1 (some 1)) "b".data 0 with
     | .err (.parseExc _) => False
     | _ => True) := by
  exact ⟨rfl, trivial⟩

/-- Claim C1 (amended): provided the repeated parser's description renders
(`pyStr p = .ok d`), `Repeat(p, m, n)` follows the two-step algorithm:
step 1 attempts exactly `m` matches — if one of them fails with a
`ParseException` the combinator fails with the distinguished
"minimum repetitions" message (a non-`ParseException` failure propagates
raw); step 2 greedily attempts up to `n − m` more matches (unboundedly
many when `n` is absent), swallowing the terminating attempt's
`ParseException`, and the result is the ordered list of all matched values
with the cursor after the last success.  Step 1 yields exactly `m` values
and step 2 at most `n − m`, so at most `n` matches are ever consumed. -/
theorem repeat_two_phase :
    ∀ (f : Nat) (p : Parser) (mn : Nat) (mx : Option Nat) (q : List Char) (s : Nat)
      (d : String), pyStr p = .ok d →
      (eval (f+1) (.rep p mn mx) q s =
        match specAttempts (fun s' => eval f p q s') mn s with
        | .err (.parseExc _) =>
            .err (.parseExc ("Expected at least " ++ toString mn ++
              " repetitions of " ++ d))
        | .err e => .err e
        | .timeout => .timeout
        | .ok vs s₁ =>
            match (match mx with
                   | some n => specGreedy (fun s' => eval f p q s') (n - mn) s₁
                   | Option.none => specGreedyUnb (fun s' => eval f p q s') f s₁) with
            | .ok ws s₂ => .ok (.list (vs ++ ws)) s₂
            | .err e => .err e
            | .timeout => .timeout) ∧
      (∀ vs s₁, specAttempts (fun s' => eval f p q s') mn s = .ok vs s₁ →
        vs.length = mn) ∧
      (∀ k s₁ ws s₂, specGreedy (fun s' => eval f p q s') k s₁ = .ok ws s₂ →
        ws.length ≤ k) := by
  intro f p mn mx q s d hp
  refine ⟨?_, ?_, ?_⟩
  · show (match evalMinF (fun s' => eval f p q s') mn s [] with
          | .err (.parseExc _) =>
              (match pyStr p with
               | .ok d' =>
                   EvalRes.err (.parseExc ("Expected at least " ++ toString mn ++
                     " repetitions of " ++ d'))
               | .error e => .err e)
          | .err e => .err e
          | .timeout => .timeout
          | .ok rs s₁ =>
              match mx with
              | some n => evalMoreF (fun s' => eval f p q s') (n - mn) s₁ rs
              | Option.none => evalMoreInfF (fun s' => eval f p q s') f s₁ rs) = _
    rw [evalMinF_eq_specAttempts]
    cases hsp : specAttempts (fun s' => eval f p q s') mn s with
    | ok vs s₁ =>
        cases mx with
        | some n =>
            dsimp only [List.nil_append]
            rw [evalMoreF_eq_specGreedy]
        | none =>
            dsimp only [List.nil_append]
            rw [evalMoreInfF_eq_specGreedyUnb]
    | err e =>
        cases e with
        | parseExc m =>
            dsimp only
            rw [hp]
        | crash m => rfl
    | timeout => rfl
  · intro vs s₁ h
    exact specAttempts_length _ mn s vs s₁ h
  · intro k s₁ ws s₂ h
    exact specGreedy_length _ k s₁ ws s₂ h

/-- Witness for `repeat_two_phase`: `Repeat(Literal("a"), 1, 3)` on
`"aab"` matches twice. -/
theorem repeat_two_phase_witness :
    pyStr (Parser.literal "a") = .ok "a" ∧
    eval 6 (.rep (.literal "a") 1 (some 3)) "aab".data 0 =
      .ok (.list [.str "a", .str "a"]) 2 := by
  refine ⟨rfl, ?_⟩
  have h := (repeat_two_phase 5 (.literal "a") 1 (some 3) "aab".data 0 "a" rfl).1
  rw [h]
  rfl

/-! ### The `Joined` round trip -/

/-- The repeated element of `Joined(pToken, pSeparator)`:
`Nth(Drop(pSeparator) + -pToken, 0)`. -/
def joinedRepElem (tok sepP : Parser) : Parser :=
  Nth (padd (.drop sepP) (.id tok)) 0

/-- Character stream of the separator-prefixed continuation tokens. -/
def restChars (sep : List Char) : List (List Char × Value) → List Char
  | [] => []
  | (t, _) :: rest => sep ++ t ++ restChars sep rest

/-- The joined input: the first token's characters followed by the
separator-prefixed remaining tokens. -/
def joinedChars (sep : List Char) : List (List Char × Value) → List Char
  | [] => []
  | (t, _) :: rest => t ++ restChars sep rest

/-- Hypothesis shape for the round trip, matching the claim wording
(each remaining token is matched exactly and cannot extend across a
separator): from cursor `s` on, right after each separator (of length
`sepL`) the token parser yields the recorded value (never `None`) and
consumes exactly the recorded characters of that token. -/
def restOk (f₀ : Nat) (tok : Parser) (sepL : Nat) (q : List Char) :
    Nat → List (List Char × Value) → Prop
  | _, [] => True
  | s, (t, v) :: rest =>
      v ≠ Value.none ∧
      eval f₀ tok q (s + sepL) = .ok v (s + sepL + t.length) ∧
      restOk f₀ tok sepL q (s + sepL + t.length) rest

theorem joined_attempt_ok (f₀ : Nat) (tok : Parser) (sepS : String) (q : List Char)
    (a : Nat) {s e : Nat} {v : Value}
    (hf : f₀ + 3 ≤ a) (hv : v ≠ Value.none)
    (hpre : sepS.data.isPrefixOf (q.drop s) = true)
    (htok : eval f₀ tok q (s + sepS.length) = .ok v e) :
    eval a (joinedRepElem tok (.literal sepS)) q s = .ok v e := by
  have hf0 : 1 ≤ f₀ := by
    by_contra h0
    have hz : f₀ = 0 := by omega
    rw [hz] at htok
    simp [eval] at htok
  obtain ⟨b, rfl⟩ : ∃ b, a = b + 4 := ⟨a - 4, by omega⟩
  have h1 : eval (b+4) (joinedRepElem tok (.literal sepS)) q s =
      match eval (b+3) (.concat [.drop (.literal sepS), .id tok]) q s with
      | .ok v₀ s' =>
          (match nthFn 0 v₀ with
           | .ok v' => .ok v' s'
           | .error e' => .err e')
      | .err e' => .err e'
      | .timeout => .timeout := rfl
  have h2 : eval (b+3) (.concat [.drop (.literal sepS), .id tok]) q s =
      evalSeqF (fun p' s' => eval (b+2) p' q s')
        [.drop (.literal sepS), .id tok] s [] := rfl
  have hlit : eval (b+1) (.literal sepS) q s = .ok (.str sepS) (s + sepS.length) := by
    show (if sepS.data.isPrefixOf (q.drop s) then
            EvalRes.ok (.str sepS) (s + sepS.length)
          else .err (fromState (.literal sepS) q s)) = _
    simp [hpre]
  have hsep : eval (b+2) (.drop (.literal sepS)) q s = .ok Value.none (s + sepS.length) := by
    show (match eval (b+1) (.literal sepS) q s with
          | .ok _ s' => EvalRes.ok Value.none s'
          | .err e' => .err e'
          | .timeout => .timeout) = _
    rw [hlit]
  have htok2 : eval (b+2) (.id tok) q (s + sepS.length) = .ok v e := by
    show eval (b+1) tok q (s + sepS.length) = .ok v e
    rw [eval_mono (show f₀ ≤ b + 1 by omega) (by rw [htok]; simp), htok]
  rw [h1, h2]
  cases v with
  | none => exact absurd rfl hv
  | str t =>
      simp only [evalSeqF, hsep, htok2, isNotNone]
      rfl
  | list vs =>
      simp only [evalSeqF, hsep, htok2, isNotNone]
      rfl

theorem joined_attempt_fail (tok : Parser) (sepS : String) (q : List Char)
    (a s : Nat) (ha : 4 ≤ a) (hsep : sepS ≠ "") (hend : q.drop s = []) :
    eval a (joinedRepElem tok (.literal sepS)) q s =
      .err (.parseExc ("Expected " ++ sepS ++ ". Query: " ++ String.mk q ++
        ". Index: " ++ toString s)) := by
  obtain ⟨b, rfl⟩ : ∃ b, a = b + 4 := ⟨a - 4, by omega⟩
  have hd : sepS.data ≠ [] := by
    intro h0
    exact hsep (String.ext (by rw [h0]))
  have hnp : sepS.data.isPrefixOf (q.drop s) = false := by
    rw [hend]
    cases hc : sepS.data with
    | nil => exact absurd hc hd
    | cons c cs => rfl
  have hlit : eval (b+1) (.literal sepS) q s = .err (fromState (.literal sepS) q s) := by
    show (if sepS.data.isPrefixOf (q.drop s) then
            EvalRes.ok (.str sepS) (s + sepS.length)
          else .err (fromState (.literal sepS) q s)) = _
    simp [hnp]
  have hdrop : eval (b+2) (.drop (.literal sepS)) q s =
      .err (fromState (.literal sepS) q s) := by
    show (match eval (b+1) (.literal sepS) q s with
          | .ok _ s' => EvalRes.ok Value.none s'
          | .err e' => .err e'
          | .timeout => .timeout) = _
    rw [hlit]
  have h1 : eval (b+4) (joinedRepElem tok (.literal sepS)) q s =
      match eval (b+3) (.concat [.drop (.literal sepS), .id tok]) q s with
      | .ok v₀ s' =>
          (match nthFn 0 v₀ with
           | .ok v' => .ok v' s'
           | .error e' => .err e')
      | .err e' => .err e'
      | .timeout => .timeout := rfl
  have h2 : eval (b+3) (.concat [.drop (.literal sepS), .id tok]) q s =
      evalSeqF (fun p' s' => eval (b+2) p' q s')
        [.drop (.literal sepS), .id tok] s [] := rfl
  rw [h1, h2]
  simp only [evalSeqF, hdrop]
  simp [fromState, pyStr]

theorem joined_greedy_loop (f₀ : Nat) (tok : Parser) (sepS : String) (q : List Char)
    (hsep : sepS ≠ "") :
    ∀ (rest : List (List Char × Value)) (g k s : Nat) (acc : List Value),
      restOk f₀ tok sepS.length q s rest →
      q.drop s = restChars sepS.data rest →
      s ≤ q.length →
      f₀ + 4 ≤ g →
      rest.length + 1 ≤ k →
      evalMoreInfF (fun s' => eval g (joinedRepElem tok (.literal sepS)) q s') k s acc =
        .ok (.list (acc ++ rest.map Prod.snd)) q.length := by
  intro rest
  induction rest with
  | nil =>
      intro g k s acc _ hdrop hs hg hk
      have hslen : s = q.length := by
        have hl := congrArg List.length hdrop
        rw [List.length_drop] at hl
        simp [restChars] at hl
        omega
      obtain ⟨k', rfl⟩ : ∃ k', k = k' + 1 := ⟨k - 1, by omega⟩
      have hfail := joined_attempt_fail tok sepS q g s (by omega) hsep
        (by rw [hdrop]; rfl)
      simp only [evalMoreInfF, hfail]
      simp [hslen]
  | cons tv rest ih =>
      obtain ⟨t, v⟩ := tv
      intro g k s acc hok hdrop hs hg hk
      obtain ⟨hv, htok, hrest⟩ := hok
      obtain ⟨k', rfl⟩ : ∃ k', k = k' + 1 := ⟨k - 1, by omega⟩
      have hdrop' : q.drop s = sepS.data ++ (t ++ restChars sepS.data rest) := by
        rw [hdrop]
        show sepS.data ++ t ++ restChars sepS.data rest = _
        rw [List.append_assoc]
      have hpre : sepS.data.isPrefixOf (q.drop s) = true := by
        rw [hdrop']
        exact List.isPrefixOf_iff_prefix.mpr (List.prefix_append _ _)
      have hSL : sepS.length = sepS.data.length := rfl
      have hlen : (q.drop s).length =
          sepS.data.length + (t.length + (restChars sepS.data rest).length) := by
        rw [hdrop']
        simp
      have hql : q.length - s =
          sepS.data.length + (t.length + (restChars sepS.data rest).length) := by
        rw [← List.length_drop]
        exact hlen
      have hok1 := joined_attempt_ok f₀ tok sepS q g (by omega) hv hpre htok
      simp only [evalMoreInfF, hok1]
      have hs' : s + sepS.length + t.length ≤ q.length := by omega
      have hdrop2 : q.drop (s + sepS.length + t.length) = restChars sepS.data rest := by
        have hsplit : q.drop (s + sepS.length + t.length) =
            (q.drop s).drop (sepS.length + t.length) := by
          rw [List.drop_drop]
          congr 1
          omega
        rw [hsplit, hdrop', ← List.append_assoc]
        have hl : (sepS.data ++ t).length = sepS.length + t.length := by
          rw [List.length_append, hSL]
        rw [← hl, List.drop_left]
      rw [ih g k' (s + sepS.length + t.length) (acc ++ [v]) hrest hdrop2 hs' hg
        (by simp at hk ⊢; omega)]
      simp

/-- Claim C9 counterexample: a token parser that matches its string
exactly but yields `None` (here `Drop(Literal("a"))`) breaks the
round-trip: for the single-token list `["a"]`, `Joined` raises
`IndexError` (the assembling lambda `[rs[0], *rs[1]]` indexes a
one-element list at 1, because `Concat` dropped the `None` first-token
value) instead of returning the token values. -/
theorem joined_none_token_crashes :
    eval 2 (.drop (.literal "a")) "a".data 0 = .ok Value.none 1 ∧
    eval 9 (Joined (.drop (.literal "a")) (.literal ",")) "a".data 0 =
      .err (.crash "IndexError") ∧
    parse 9 (Joined (.drop (.literal "a")) (.literal ",")) "a".data =
      .err (.crash "IndexError") := ⟨rfl, rfl, rfl⟩

/-- Claim C9 (amended): for `n ≥ 1` token strings, each matched exactly by
the token parser *with a non-`None` value* and not extendable across a
separator (hypotheses `h₀`/`restOk`: at each token position of the joined
input the token parser succeeds consuming exactly that token), and a
non-empty separator string, `Joined(token, sep).parse` on the joined
input succeeds and returns exactly the ordered list of the `n` token
values. -/
theorem joined_round_trip :
    ∀ (f₀ : Nat) (tok : Parser) (sepS : String) (t₀ : List Char) (v₀ : Value)
      (rest : List (List Char × Value)),
      sepS ≠ "" → v₀ ≠ Value.none →
      eval f₀ tok (joinedChars sepS.data ((t₀, v₀) :: rest)) 0 = .ok v₀ t₀.length →
      restOk f₀ tok sepS.length (joinedChars sepS.data ((t₀, v₀) :: rest)) t₀.length rest →
      ∀ F, f₀ + rest.length + 12 ≤ F →
        parse F (Joined tok (.literal sepS)) (joinedChars sepS.data ((t₀, v₀) :: rest)) =
          .ok (.list (v₀ :: rest.map Prod.snd)) := by
  intro f₀ tok sepS t₀ v₀ rest hsep hv h₀ hrest F hF
  have hf0 : 1 ≤ f₀ := by
    by_contra h0
    have hz : f₀ = 0 := by omega
    rw [hz] at h₀
    simp [eval] at h₀
  obtain ⟨G, rfl⟩ : ∃ G, F = G + 3 := ⟨F - 3, by omega⟩
  set q := joinedChars sepS.data ((t₀, v₀) :: rest) with hq
  have hqdef : q = t₀ ++ restChars sepS.data rest := rfl
  have ht₀len : t₀.length ≤ q.length := by
    rw [hqdef]
    simp
  have hdrop0 : q.drop t₀.length = restChars sepS.data rest := by
    rw [hqdef]
    exact List.drop_left t₀ _
  have htok : eval (G+1) (.id tok) q 0 = .ok v₀ t₀.length := by
    show eval G tok q 0 = .ok v₀ t₀.length
    rw [eval_mono (show f₀ ≤ G by omega) (by rw [h₀]; simp), h₀]
  have hrep : eval (G+1)
      (.rep (joinedRepElem tok (.literal sepS)) 0 Option.none) q t₀.length =
      .ok (.list (rest.map Prod.snd)) q.length := by
    show evalMoreInfF (fun s' => eval G (joinedRepElem tok (.literal sepS)) q s')
      G t₀.length [] = _
    rw [joined_greedy_loop f₀ tok sepS q hsep rest G G t₀.length [] hrest hdrop0
      ht₀len (by omega) (by omega)]
    simp
  have hcat : eval (G+2)
      (.concat [.id tok, .rep (joinedRepElem tok (.literal sepS)) 0 Option.none]) q 0 =
      .ok (.list [v₀, .list (rest.map Prod.snd)]) q.length := by
    show evalSeqF (fun p' s' => eval (G+1) p' q s')
      [.id tok, .rep (joinedRepElem tok (.literal sepS)) 0 Option.none] 0 [] = _
    cases v₀ with
    | none => exact absurd rfl hv
    | str t =>
        simp only [evalSeqF, htok, hrep, isNotNone]
        rfl
    | list vs =>
        simp only [evalSeqF, htok, hrep, isNotNone]
        rfl
  have hjoin : eval (G+3) (Joined tok (.literal sepS)) q 0 =
      .ok (.list (v₀ :: rest.map Prod.snd)) q.length := by
    have hm : eval (G+3) (Joined tok (.literal sepS)) q 0 =
        match eval (G+2)
          (.concat [.id tok, .rep (joinedRepElem tok (.literal sepS)) 0 Option.none]) q 0 with
        | .ok v s' =>
            (match joinedFn v with
             | .ok v' => .ok v' s'
             | .error e' => .err e')
        | .err e' => .err e'
        | .timeout => .timeout := rfl
    rw [hm, hcat]
    rfl
  show parse (G+3) (Joined tok (.literal sepS)) q = _
  simp only [parse, hjoin]
  simp

/-- Witness for `joined_round_trip`: two `"ab"` tokens joined by `","`. -/
theorem joined_round_trip_witness :
    ("," : String) ≠ "" ∧
    Value.str "ab" ≠ Value.none ∧
    eval 1 (.literal "ab")
      (joinedChars ",".data [("ab".data, .str "ab"), ("ab".data, .str "ab")]) 0 =
      .ok (.str "ab") ("ab".data.length) ∧
    restOk 1 (.literal "ab") (",".length)
      (joinedChars ",".data [("ab".data, .str "ab"), ("ab".data, .str "ab")])
      ("ab".data.length) [("ab".data, .str "ab")] ∧
    parse 14 (Joined (.literal "ab") (.literal ","))
      (joinedChars ",".data [("ab".data, .str "ab"), ("ab".data, .str "ab")]) =
      .ok (.list [.str "ab", .str "ab"]) := by
  refine ⟨by decide, by simp, rfl, ⟨by simp, rfl, trivial⟩, ?_⟩
  exact joined_round_trip 1 (.literal "ab") "," "ab".data (.str "ab")
    [("ab".data, .str "ab")] (by decide) (by simp) rfl ⟨by simp, rfl, trivial⟩ 14
    (by decide)

end Pysec
